import Mathlib

/-!
# Verification of the scrunch row compactor

Shallow embedding of the core row-classification-and-compaction algorithm of
`src/index.jsx` (`processImage`).  The pixel buffer is a `List Nat` of bytes
(each < 256 in well-formed inputs; out-of-range reads behave like the
JavaScript typed-array reads, contributing 0 to bitwise operations and 0
bytes when stored, hence `List.getD _ _ 0`).  All intermediate integer values
stay far below 2^31, so JavaScript 32-bit bitwise semantics coincide with
plain `Nat` arithmetic here.
-/

/-- Number of interleaved channels per pixel (RGBA). Source: `const channels = 4`. -/
def channels : Nat := 4

/-- Quantized color key of the pixel starting at byte offset `pixelStart`.
Source loop: `for c in 0..channels-2: value = floor(data[pixelStart+c] / quantizationFactor); pixelValue = (pixelValue << 4) | value`. -/
def pixelKey (data : List Nat) (pixelStart quantizationFactor : Nat) : Nat :=
  (List.range (channels - 1)).foldl
    (fun pixelValue c =>
      (pixelValue <<< 4) ||| ((data.getD (pixelStart + c) 0) / quantizationFactor))
    0

/-- Insert a key into the row's set of unique keys, mirroring a JS `Set`:
no duplicates, insertion order. -/
def insertKey (s : List Nat) (k : Nat) : List Nat :=
  if k ∈ s then s else s ++ [k]

/-- The per-row pixel scan with early exit.  `xs` is the list of remaining
pixel x-coordinates; `s` the set of keys seen so far. Source:
`for x ...: uniquePixels.add(pixelValue); if (uniquePixels.size > maxDifferentPixels) break`. -/
def scanRow (data : List Nat) (rowStart quantizationFactor maxDifferentPixels : Nat) :
    List Nat → List Nat → List Nat
  | [], s => s
  | x :: xs, s =>
    let s' := insertKey s (pixelKey data (rowStart + x * channels) quantizationFactor)
    if maxDifferentPixels < s'.length then s'
    else scanRow data rowStart quantizationFactor maxDifferentPixels xs s'

/-- Row classification: the row starting at `rowStart` is kept iff the scanned
set has size `> maxDifferentPixels`. Source: `if (uniquePixels.size > maxDifferentPixels)`. -/
def rowIsContent (data : List Nat) (width rowStart maxDifferentPixels quantizationFactor : Nat) :
    Bool :=
  maxDifferentPixels <
    (scanRow data rowStart quantizationFactor maxDifferentPixels (List.range width) []).length

/-- The bytes copied for a content row. Source:
`for i in rowStart..rowStart+width*channels: nonBlankRows.push(data[i])`
(missing bytes become 0 in the output `Uint8ClampedArray`). -/
def rowBytes (data : List Nat) (rowStart width : Nat) : List Nat :=
  (List.range (width * channels)).map (fun i => data.getD (rowStart + i) 0)

/-- The core of `processImage`: classify every row top to bottom, concatenate
the surviving rows' bytes, and return the new buffer together with
`newHeight = nonBlankRows.length / (width * channels)`. -/
def processImage (data : List Nat) (width height maxDifferentPixels quantizationFactor : Nat) :
    List Nat × Nat :=
  let nonBlankRows :=
    (List.range height).foldl
      (fun acc y =>
        let rowStart := y * width * channels
        if rowIsContent data width rowStart maxDifferentPixels quantizationFactor then
          acc ++ rowBytes data rowStart width
        else acc)
      []
  (nonBlankRows, nonBlankRows.length / (width * channels))

/-- The list of quantized color keys of a row, one per pixel, left to right. -/
def rowKeys (data : List Nat) (rowStart quantizationFactor width : Nat) : List Nat :=
  (List.range width).map (fun x => pixelKey data (rowStart + x * channels) quantizationFactor)

/-! ### Basic facts about the key set (`insertKey` and folds over it) -/

theorem length_le_insertKey (s : List Nat) (k : Nat) : s.length ≤ (insertKey s k).length := by
  unfold insertKey
  split
  · exact Nat.le_refl _
  · simp

theorem nodup_insertKey {s : List Nat} (h : s.Nodup) (k : Nat) : (insertKey s k).Nodup := by
  unfold insertKey
  split
  · exact h
  · next hk => simpa [List.nodup_append] using ⟨h, hk⟩

theorem toFinset_insertKey (s : List Nat) (k : Nat) :
    (insertKey s k).toFinset = insert k s.toFinset := by
  unfold insertKey
  split
  · next hk => rw [Finset.insert_eq_self.mpr (List.mem_toFinset.mpr hk)]
  · ext a
    simp [or_comm]

theorem length_le_foldl_insertKey (l : List Nat) (s : List Nat) :
    s.length ≤ (l.foldl insertKey s).length := by
  induction l generalizing s with
  | nil => exact Nat.le_refl _
  | cons k l ih => exact Nat.le_trans (length_le_insertKey s k) (ih (insertKey s k))

theorem nodup_foldl_insertKey (l : List Nat) {s : List Nat} (h : s.Nodup) :
    (l.foldl insertKey s).Nodup := by
  induction l generalizing s with
  | nil => exact h
  | cons k l ih => exact ih (nodup_insertKey h k)

theorem toFinset_foldl_insertKey (l : List Nat) (s : List Nat) :
    (l.foldl insertKey s).toFinset = s.toFinset ∪ l.toFinset := by
  induction l generalizing s with
  | nil => simp
  | cons k l ih =>
    simp only [List.foldl_cons, ih, toFinset_insertKey, List.toFinset_cons,
      Finset.insert_union, Finset.union_insert]

theorem length_foldl_insertKey_nil (l : List Nat) :
    (l.foldl insertKey []).length = l.toFinset.card := by
  rw [← List.toFinset_card_of_nodup (nodup_foldl_insertKey l List.nodup_nil),
    toFinset_foldl_insertKey]
  simp

/-! ### The early-exit scan agrees with the full fold on the threshold test -/

theorem scanRow_content_iff (data : List Nat) (r q m : Nat) :
    ∀ (xs : List Nat) (s : List Nat),
      m < (scanRow data r q m xs s).length ↔
        m < ((xs.map (fun x => pixelKey data (r + x * channels) q)).foldl insertKey s).length := by
  intro xs
  induction xs with
  | nil => intro s; exact Iff.rfl
  | cons x xs ih =>
    intro s
    simp only [scanRow, List.map_cons, List.foldl_cons]
    split
    · next hgt =>
      constructor
      · intro _
        exact Nat.lt_of_lt_of_le hgt
          (length_le_foldl_insertKey _ (insertKey s (pixelKey data (r + x * channels) q)))
      · intro _; exact hgt
    · exact ih _

/-- The number of distinct quantized color keys of a row, counted over the
whole row: the classification quantity named throughout the spec. -/
theorem rowIsContent_iff_card (data : List Nat) (w r m q : Nat) :
    rowIsContent data w r m q = true ↔ m < (rowKeys data r q w).toFinset.card := by
  unfold rowIsContent rowKeys
  rw [decide_eq_true_eq, scanRow_content_iff, length_foldl_insertKey_nil]

/-- C3: the threshold comparison is strict. A row is classified content iff
its distinct-key count strictly exceeds `maxDifferentPixels`; in particular a
row whose count is exactly `maxDifferentPixels` is classified blank. -/
theorem rowIsContent_strict_threshold (data : List Nat) (w r m q : Nat) :
    (rowIsContent data w r m q = true ↔ m < (rowKeys data r q w).toFinset.card)
    ∧ ((rowKeys data r q w).toFinset.card = m → rowIsContent data w r m q = false) := by
  refine ⟨rowIsContent_iff_card data w r m q, fun hc => ?_⟩
  rw [Bool.eq_false_iff]
  intro htrue
  exact absurd ((rowIsContent_iff_card data w r m q).mp htrue) (by rw [hc]; exact Nat.lt_irrefl m)

/-- A 1×4 row with exactly two distinct quantized colors (black and white). -/
def rowC3 : List Nat :=
  [0, 0, 0, 255,  0, 0, 0, 255,  255, 255, 255, 255,  255, 255, 255, 255]

/-- Witness for the strict-threshold theorem: a row with exactly 2 distinct
quantized colors is dropped at `maxDifferentPixels = 2` (the spec's own
verification scenario). -/
theorem rowIsContent_strict_threshold_witness :
    rowIsContent rowC3 4 0 2 16 = false :=
  (rowIsContent_strict_threshold rowC3 4 0 2 16).2 (by decide)

/-! ### Characterization of `processImage`: filter, then concatenate slices -/

/-- The indices of the rows classified as content, in top-to-bottom order. -/
def contentRows (data : List Nat) (width height maxDifferentPixels quantizationFactor : Nat) :
    List Nat :=
  (List.range height).filter
    (fun y => rowIsContent data width (y * width * channels) maxDifferentPixels quantizationFactor)

theorem foldl_append_filter {α β : Type} (p : α → Bool) (f : α → List β) :
    ∀ (l : List α) (acc : List β),
      l.foldl (fun acc y => if p y then acc ++ f y else acc) acc
        = acc ++ ((l.filter p).map f).flatten := by
  intro l
  induction l with
  | nil => intro acc; simp
  | cons y l ih =>
    intro acc
    simp only [List.foldl_cons, List.filter_cons]
    by_cases hp : p y = true
    · simp [hp, ih, List.append_assoc]
    · simp only [Bool.not_eq_true] at hp
      simp [hp, ih]

theorem processImage_fst (data : List Nat) (w h m q : Nat) :
    (processImage data w h m q).1
      = ((contentRows data w h m q).map (fun y => rowBytes data (y * w * channels) w)).flatten := by
  unfold processImage contentRows
  simp only
  rw [foldl_append_filter
    (fun y => rowIsContent data w (y * w * channels) m q)
    (fun y => rowBytes data (y * w * channels) w)]
  simp

theorem length_rowBytes (data : List Nat) (r w : Nat) :
    (rowBytes data r w).length = w * channels := by
  unfold rowBytes
  simp

theorem flatten_length_const {α β : Type} (f : α → List β) (K : Nat) :
    ∀ (l : List α), (∀ a ∈ l, (f a).length = K) →
      ((l.map f).flatten).length = l.length * K := by
  intro l
  induction l with
  | nil => intro _; simp
  | cons a l ih =>
    intro hK
    simp only [List.map_cons, List.flatten_cons, List.length_append, List.length_cons,
      hK a (List.mem_cons_self a l), ih (fun b hb => hK b (List.mem_cons_of_mem a hb)),
      Nat.succ_mul]
    exact Nat.add_comm _ _

theorem processImage_fst_length (data : List Nat) (w h m q : Nat) :
    (processImage data w h m q).1.length
      = (contentRows data w h m q).length * (w * channels) := by
  rw [processImage_fst]
  exact flatten_length_const _ _ _ (fun y _ => length_rowBytes data (y * w * channels) w)

theorem processImage_snd (data : List Nat) (w h m q : Nat) (hw : 0 < w) :
    (processImage data w h m q).2 = (contentRows data w h m q).length := by
  have hfst : (processImage data w h m q).2
      = (processImage data w h m q).1.length / (w * channels) := by
    unfold processImage
    simp only
  rw [hfst, processImage_fst_length]
  exact Nat.mul_div_cancel _ (Nat.mul_pos hw (by norm_num [channels]))

/-- Inside the buffer, the bytes copied for a row are exactly the input's
slice for that row. -/
theorem rowBytes_eq_slice (data : List Nat) (r w : Nat)
    (hle : r + w * channels ≤ data.length) :
    rowBytes data r w = (data.drop r).take (w * channels) := by
  apply List.ext_getElem
  · rw [length_rowBytes, List.length_take, List.length_drop]
    omega
  · intro i h1 h2
    rw [length_rowBytes] at h1
    unfold rowBytes
    simp only [List.getElem_map, List.getElem_range, List.getElem_take, List.getElem_drop]
    exact List.getD_eq_getElem data 0 (by omega)

/-- A buffer of exactly `h` rows is recovered by concatenating its row
slices in order. -/
theorem flatten_row_slices (w : Nat) :
    ∀ (h : Nat) (data : List Nat), data.length = h * (w * channels) →
      ((List.range h).map (fun y => (data.drop (y * (w * channels))).take (w * channels))).flatten
        = data := by
  intro h
  induction h with
  | zero =>
    intro data hlen
    simp only [Nat.zero_mul] at hlen
    simp [List.eq_nil_of_length_eq_zero hlen]
  | succ h ih =>
    intro data hlen
    rw [List.range_succ_eq_map]
    simp only [List.map_cons, List.map_map, List.flatten_cons, Nat.zero_mul, List.drop_zero]
    have hstep : ∀ y : Nat,
        ((fun y => (data.drop (y * (w * channels))).take (w * channels)) ∘ Nat.succ) y
          = ((data.drop (w * channels)).drop (y * (w * channels))).take (w * channels) := by
      intro y
      simp only [Function.comp_apply, List.drop_drop]
      have harg : w * channels + y * (w * channels) = Nat.succ y * (w * channels) := by
        rw [Nat.succ_mul, Nat.add_comm]
      rw [harg]
    have htail :
        ((List.range h).map
            ((fun y => (data.drop (y * (w * channels))).take (w * channels)) ∘ Nat.succ)).flatten
          = data.drop (w * channels) := by
      have := ih (data.drop (w * channels)) (by rw [List.length_drop, hlen, Nat.succ_mul]; omega)
      calc ((List.range h).map
            ((fun y => (data.drop (y * (w * channels))).take (w * channels)) ∘ Nat.succ)).flatten
          = ((List.range h).map
            (fun y => ((data.drop (w * channels)).drop (y * (w * channels))).take
              (w * channels))).flatten := by
            rw [List.map_congr_left (fun y _ => hstep y)]
        _ = data.drop (w * channels) := this
    rw [htail, List.take_append_drop]

/-- On a well-formed buffer the output is the concatenation of the content
rows' input slices, in top-to-bottom order. -/
theorem processImage_fst_slices (data : List Nat) (w h m q : Nat)
    (hlen : data.length = w * h * channels) :
    (processImage data w h m q).1
      = ((contentRows data w h m q).map
          (fun y => (data.drop (y * w * channels)).take (w * channels))).flatten := by
  rw [processImage_fst]
  congr 1
  apply List.map_congr_left
  intro y hy
  have hyh : y < h := List.mem_range.mp (List.mem_of_mem_filter hy)
  apply rowBytes_eq_slice
  rw [hlen]
  calc y * w * channels + w * channels
      = (y + 1) * (w * channels) := by ring
    _ ≤ h * (w * channels) := Nat.mul_le_mul_right _ hyh
    _ = w * h * channels := by ring

/-- C2: shape of the result on well-formed input. The output length is
(number of content rows) × width × 4, `newHeight` is the number of content
rows, and the output is the concatenation of the surviving rows' input
slices in top-to-bottom order. -/
theorem processImage_shape (data : List Nat) (w h m q : Nat)
    (hlen : data.length = w * h * channels) (hw : 0 < w) (hh : 0 < h) (hq : 0 < q) :
    (processImage data w h m q).1.length = (contentRows data w h m q).length * (w * channels)
    ∧ (processImage data w h m q).2 = (contentRows data w h m q).length
    ∧ (processImage data w h m q).1
        = ((contentRows data w h m q).map
            (fun y => (data.drop (y * w * channels)).take (w * channels))).flatten :=
  ⟨processImage_fst_length data w h m q, processImage_snd data w h m q hw,
    processImage_fst_slices data w h m q hlen⟩

/-- Witness input for shape/monotonicity claims: 2×2, top row uniform,
bottom row with two distinct colors. -/
def inputW : List Nat :=
  [9, 9, 9, 255,  9, 9, 9, 255,
   0, 0, 0, 255,  255, 255, 255, 255]

/-- Witness for `processImage_shape` at a concrete well-formed input. -/
theorem processImage_shape_witness :
    (processImage inputW 2 2 1 16).1.length = (contentRows inputW 2 2 1 16).length * (2 * channels)
    ∧ (processImage inputW 2 2 1 16).2 = (contentRows inputW 2 2 1 16).length
    ∧ (processImage inputW 2 2 1 16).1
        = ((contentRows inputW 2 2 1 16).map
            (fun y => (inputW.drop (y * 2 * channels)).take (2 * channels))).flatten :=
  processImage_shape inputW 2 2 1 16 (by decide) (by decide) (by decide) (by decide)

/-! ### Monotonicity in the threshold, all-content and all-blank cases -/

theorem rowIsContent_antitone (data : List Nat) (w r q : Nat) {m1 m2 : Nat} (h12 : m1 ≤ m2) :
    rowIsContent data w r m2 q = true → rowIsContent data w r m1 q = true := by
  intro h2
  exact (rowIsContent_iff_card data w r m1 q).mpr
    (Nat.lt_of_le_of_lt h12 ((rowIsContent_iff_card data w r m2 q).mp h2))

/-- C4: for a fixed input, raising the threshold never increases the output
height. -/
theorem processImage_height_antitone (data : List Nat) (w h q t1 t2 : Nat)
    (hw : 0 < w) (h12 : t1 ≤ t2) :
    (processImage data w h t2 q).2 ≤ (processImage data w h t1 q).2 := by
  rw [processImage_snd data w h t2 q hw, processImage_snd data w h t1 q hw]
  unfold contentRows
  rw [← List.countP_eq_length_filter, ← List.countP_eq_length_filter]
  exact List.countP_mono_left
    (fun y _ hy => rowIsContent_antitone data w (y * w * channels) q h12 hy)

/-- Witness for threshold monotonicity: on the concrete 2×2 input, height at
threshold 1 is at most height at threshold 0. -/
theorem processImage_height_antitone_witness :
    (processImage inputW 2 2 1 16).2 ≤ (processImage inputW 2 2 0 16).2 :=
  processImage_height_antitone inputW 2 2 16 0 1 (by decide) (by decide)

/-- C5: when every row is classified content, the compactor is the identity:
the output buffer is byte-identical to the input and the height is unchanged. -/
theorem processImage_all_content (data : List Nat) (w h m q : Nat)
    (hlen : data.length = w * h * channels) (hw : 0 < w)
    (hall : ∀ y, y < h → rowIsContent data w (y * w * channels) m q = true) :
    processImage data w h m q = (data, h) := by
  have hfilter : contentRows data w h m q = List.range h := by
    unfold contentRows
    exact List.filter_eq_self.mpr (fun y hy => hall y (List.mem_range.mp hy))
  have hfst : (processImage data w h m q).1 = data := by
    rw [processImage_fst, hfilter]
    have hmap : (List.range h).map (fun y => rowBytes data (y * w * channels) w)
        = (List.range h).map (fun y => (data.drop (y * (w * channels))).take (w * channels)) := by
      apply List.map_congr_left
      intro y hy
      have hyh : y < h := List.mem_range.mp hy
      rw [← Nat.mul_assoc]
      apply rowBytes_eq_slice
      rw [hlen]
      calc y * w * channels + w * channels
          = (y + 1) * (w * channels) := by ring
        _ ≤ h * (w * channels) := Nat.mul_le_mul_right _ hyh
        _ = w * h * channels := by ring
    rw [hmap]
    exact flatten_row_slices w h data (by rw [hlen]; ring)
  have hsnd : (processImage data w h m q).2 = h := by
    rw [processImage_snd data w h m q hw, hfilter, List.length_range]
  calc processImage data w h m q
      = ((processImage data w h m q).1, (processImage data w h m q).2) := rfl
    _ = (data, h) := by rw [hfst, hsnd]

/-- Witness for the all-content case: at threshold 0 every row of the
concrete 2×2 input is content, and the output equals the input. -/
theorem processImage_all_content_witness :
    processImage inputW 2 2 0 16 = (inputW, 2) :=
  processImage_all_content inputW 2 2 0 16 (by decide) (by decide)
    (by decide)

/-- C6: when every row is classified blank, the compactor returns the empty
buffer with height 0, as an ordinary (total, non-failing) result. -/
theorem processImage_all_blank (data : List Nat) (w h m q : Nat) (hw : 0 < w)
    (hall : ∀ y, y < h → rowIsContent data w (y * w * channels) m q = false) :
    processImage data w h m q = ([], 0) := by
  have hfilter : contentRows data w h m q = [] := by
    unfold contentRows
    rw [List.filter_eq_nil_iff]
    intro y hy
    rw [hall y (List.mem_range.mp hy)]
    exact Bool.false_ne_true
  have hfst : (processImage data w h m q).1 = [] := by
    rw [processImage_fst, hfilter]
    rfl
  have hsnd : (processImage data w h m q).2 = 0 := by
    rw [processImage_snd data w h m q hw, hfilter]
    rfl
  calc processImage data w h m q
      = ((processImage data w h m q).1, (processImage data w h m q).2) := rfl
    _ = ([], 0) := by rw [hfst, hsnd]

/-- A 2×2 input whose rows are both uniform. -/
def inputB : List Nat :=
  [3, 3, 3, 255,  3, 3, 3, 255,
   200, 200, 200, 0,  200, 200, 200, 0]

/-- Witness for the all-blank case: a 2×2 input with uniform rows compacts
to the empty buffer at threshold 1. -/
theorem processImage_all_blank_witness :
    processImage inputB 2 2 1 16 = ([], 0) :=
  processImage_all_blank inputB 2 2 1 16 (by decide) (by decide)

/-! ### The reference full-row scan (refinement target for the early exit) -/

/-- Modelled from the spec: the reference per-row scan that "scans the full
row and compares the final distinct-key count to the threshold afterward"
(no early exit). -/
def scanRowAll (data : List Nat) (rowStart quantizationFactor : Nat) :
    List Nat → List Nat → List Nat
  | [], s => s
  | x :: xs, s =>
    scanRowAll data rowStart quantizationFactor xs
      (insertKey s (pixelKey data (rowStart + x * channels) quantizationFactor))

/-- Modelled from the spec: row classification by the reference full scan. -/
def rowIsContentRef (data : List Nat)
    (width rowStart maxDifferentPixels quantizationFactor : Nat) : Bool :=
  maxDifferentPixels <
    (scanRowAll data rowStart quantizationFactor (List.range width) []).length

/-- Modelled from the spec: `processImage` with the reference full-scan row
classification in place of the early-exit one. -/
def processImageRef (data : List Nat)
    (width height maxDifferentPixels quantizationFactor : Nat) : List Nat × Nat :=
  let nonBlankRows :=
    (List.range height).foldl
      (fun acc y =>
        let rowStart := y * width * channels
        if rowIsContentRef data width rowStart maxDifferentPixels quantizationFactor then
          acc ++ rowBytes data rowStart width
        else acc)
      []
  (nonBlankRows, nonBlankRows.length / (width * channels))

theorem scanRowAll_eq_foldl (data : List Nat) (r q : Nat) :
    ∀ (xs : List Nat) (s : List Nat),
      scanRowAll data r q xs s
        = (xs.map (fun x => pixelKey data (r + x * channels) q)).foldl insertKey s := by
  intro xs
  induction xs with
  | nil => intro s; rfl
  | cons x xs ih =>
    intro s
    simp only [scanRowAll, List.map_cons, List.foldl_cons]
    exact ih _

theorem rowIsContentRef_eq (data : List Nat) (w r m q : Nat) :
    rowIsContentRef data w r m q = rowIsContent data w r m q := by
  have h1 : rowIsContentRef data w r m q = true ↔ rowIsContent data w r m q = true := by
    unfold rowIsContentRef rowIsContent
    rw [decide_eq_true_eq, decide_eq_true_eq, scanRowAll_eq_foldl,
      scanRow_content_iff]
  cases hx : rowIsContent data w r m q
  · cases hy : rowIsContentRef data w r m q
    · rfl
    · exact absurd (h1.mp hy) (by rw [hx]; exact Bool.false_ne_true)
  · exact h1.mpr hx

/-- C7: the early-exit scan is a refinement of the reference full scan:
both classify every row identically, and the compactor built on the full
scan returns exactly the same buffer and height as the implemented one. -/
theorem processImage_full_scan_equiv (data : List Nat) (w h m q : Nat) :
    (∀ r, rowIsContentRef data w r m q = rowIsContent data w r m q)
    ∧ processImageRef data w h m q = processImage data w h m q := by
  refine ⟨fun r => rowIsContentRef_eq data w r m q, ?_⟩
  unfold processImageRef processImage
  simp only [rowIsContentRef_eq]

/-! ### The packed key, alpha independence -/

/-- The bit-packing at the heart of the key computation: the three quantized
channel values are concatenated with a fixed 4-bit left shift,
`((q0 << 4 | q1) << 4) | q2`. -/
def packKey (q0 q1 q2 : Nat) : Nat :=
  ((((q0 <<< 4) ||| q1) <<< 4) ||| q2)

theorem pixelKey_eq_packKey (data : List Nat) (p q : Nat) :
    pixelKey data p q
      = packKey (data.getD p 0 / q) (data.getD (p + 1) 0 / q) (data.getD (p + 2) 0 / q) := by
  unfold pixelKey packKey channels
  simp [List.range_succ, Nat.zero_or]

theorem pixelKey_alpha_congr {d1 d2 : List Nat}
    (hag : ∀ i, i % 4 ≠ 3 → d1.getD i 0 = d2.getD i 0) (p q : Nat) (hp : p % 4 = 0) :
    pixelKey d1 p q = pixelKey d2 p q := by
  rw [pixelKey_eq_packKey, pixelKey_eq_packKey,
    hag p (by omega), hag (p + 1) (by omega), hag (p + 2) (by omega)]

theorem scanRow_alpha_congr {d1 d2 : List Nat}
    (hag : ∀ i, i % 4 ≠ 3 → d1.getD i 0 = d2.getD i 0) (r q m : Nat) (hr : r % 4 = 0) :
    ∀ (xs : List Nat) (s : List Nat), scanRow d1 r q m xs s = scanRow d2 r q m xs s := by
  intro xs
  induction xs with
  | nil => intro s; rfl
  | cons x xs ih =>
    intro s
    have hkey : pixelKey d1 (r + x * channels) q = pixelKey d2 (r + x * channels) q := by
      apply pixelKey_alpha_congr hag
      simp only [channels]
      omega
    simp only [scanRow, hkey]
    split
    · rfl
    · exact ih _

theorem rowIsContent_alpha_congr {d1 d2 : List Nat}
    (hag : ∀ i, i % 4 ≠ 3 → d1.getD i 0 = d2.getD i 0) (w r m q : Nat) (hr : r % 4 = 0) :
    rowIsContent d1 w r m q = rowIsContent d2 w r m q := by
  unfold rowIsContent
  rw [scanRow_alpha_congr hag r q m hr]

theorem rowStart_mod_four (y w : Nat) : (y * w * channels) % 4 = 0 := by
  simp only [channels]
  exact Nat.mul_mod_left (y * w) 4

theorem contentRows_alpha_congr {d1 d2 : List Nat}
    (hag : ∀ i, i % 4 ≠ 3 → d1.getD i 0 = d2.getD i 0) (w h m q : Nat) :
    contentRows d1 w h m q = contentRows d2 w h m q := by
  unfold contentRows
  apply List.filter_congr
  intro y _
  exact rowIsContent_alpha_congr hag w (y * w * channels) m q (rowStart_mod_four y w)

/-- C8: row classification ignores the alpha channel, and content rows are
copied verbatim.  If two buffers agree on every non-alpha byte, the same rows
are content in both, the output heights coincide, and each run's output is
the concatenation of its own unmodified 4-channel row slices. -/
theorem processImage_alpha_independent (d1 d2 : List Nat) (w h m q : Nat)
    (hag : ∀ i, i % 4 ≠ 3 → d1.getD i 0 = d2.getD i 0)
    (hlen : d1.length = w * h * channels) :
    (∀ y, rowIsContent d1 w (y * w * channels) m q
        = rowIsContent d2 w (y * w * channels) m q)
    ∧ (processImage d1 w h m q).2 = (processImage d2 w h m q).2
    ∧ (processImage d1 w h m q).1
        = ((contentRows d1 w h m q).map
            (fun y => (d1.drop (y * w * channels)).take (w * channels))).flatten := by
  refine ⟨fun y => rowIsContent_alpha_congr hag w (y * w * channels) m q
      (rowStart_mod_four y w), ?_, processImage_fst_slices d1 w h m q hlen⟩
  have h1 : (processImage d1 w h m q).2
      = (processImage d1 w h m q).1.length / (w * channels) := by
    unfold processImage
    simp only
  have h2 : (processImage d2 w h m q).2
      = (processImage d2 w h m q).1.length / (w * channels) := by
    unfold processImage
    simp only
  rw [h1, h2, processImage_fst_length, processImage_fst_length,
    contentRows_alpha_congr hag w h m q]

/-- Copy of `inputW` with every alpha byte replaced. -/
def inputWAlpha : List Nat :=
  [9, 9, 9, 7,  9, 9, 9, 0,
   0, 0, 0, 13,  255, 255, 255, 200]

/-- The two concrete buffers agree on every non-alpha byte. -/
theorem inputW_alpha_agree : ∀ i, i % 4 ≠ 3 → inputW.getD i 0 = inputWAlpha.getD i 0 := by
  intro i hi
  by_cases h16 : i < 16
  · have hall : ∀ j ∈ List.range 16, j % 4 ≠ 3 → inputW.getD j 0 = inputWAlpha.getD j 0 := by
      decide
    exact hall i (List.mem_range.mpr h16) hi
  · rw [List.getD_eq_default _ _ (show inputW.length ≤ i by simp [inputW]; omega),
      List.getD_eq_default _ _ (show inputWAlpha.length ≤ i by simp [inputWAlpha]; omega)]

/-- Witness for alpha independence at a concrete pair of buffers differing
only in alpha bytes. -/
theorem processImage_alpha_independent_witness :
    (∀ y, rowIsContent inputW 2 (y * 2 * channels) 1 16
        = rowIsContent inputWAlpha 2 (y * 2 * channels) 1 16)
    ∧ (processImage inputW 2 2 1 16).2 = (processImage inputWAlpha 2 2 1 16).2
    ∧ (processImage inputW 2 2 1 16).1
        = ((contentRows inputW 2 2 1 16).map
            (fun y => (inputW.drop (y * 2 * channels)).take (2 * channels))).flatten :=
  processImage_alpha_independent inputW inputWAlpha 2 2 1 16
    inputW_alpha_agree (by decide)

/-! ### No length validation: the core only ever reads below width·height·4 -/

theorem pixelKey_congr_lt {d1 d2 : List Nat} {N : Nat}
    (hag : ∀ i, i < N → d1.getD i 0 = d2.getD i 0) (p q : Nat) (hp : p + 3 ≤ N) :
    pixelKey d1 p q = pixelKey d2 p q := by
  rw [pixelKey_eq_packKey, pixelKey_eq_packKey,
    hag p (by omega), hag (p + 1) (by omega), hag (p + 2) (by omega)]

theorem scanRow_congr_lt {d1 d2 : List Nat} {N : Nat}
    (hag : ∀ i, i < N → d1.getD i 0 = d2.getD i 0) (r q m : Nat) :
    ∀ (xs : List Nat) (s : List Nat), (∀ x ∈ xs, r + x * channels + 3 ≤ N) →
      scanRow d1 r q m xs s = scanRow d2 r q m xs s := by
  intro xs
  induction xs with
  | nil => intro s _; rfl
  | cons x xs ih =>
    intro s hb
    have hkey : pixelKey d1 (r + x * channels) q = pixelKey d2 (r + x * channels) q :=
      pixelKey_congr_lt hag _ q (hb x (List.mem_cons_self x xs))
    simp only [scanRow, hkey]
    split
    · rfl
    · exact ih _ (fun x' hx' => hb x' (List.mem_cons_of_mem x hx'))

theorem rowIsContent_congr_lt {d1 d2 : List Nat} {N : Nat}
    (hag : ∀ i, i < N → d1.getD i 0 = d2.getD i 0) (w r m q : Nat)
    (hb : r + w * channels ≤ N) :
    rowIsContent d1 w r m q = rowIsContent d2 w r m q := by
  unfold rowIsContent
  rw [scanRow_congr_lt hag r q m (List.range w) []]
  intro x hx
  have hxw : x < w := List.mem_range.mp hx
  have : x * channels + 3 < w * channels := by
    simp only [channels]
    omega
  omega

theorem rowBytes_congr_lt {d1 d2 : List Nat} {N : Nat}
    (hag : ∀ i, i < N → d1.getD i 0 = d2.getD i 0) (r w : Nat)
    (hb : r + w * channels ≤ N) :
    rowBytes d1 r w = rowBytes d2 r w := by
  unfold rowBytes
  apply List.map_congr_left
  intro i hi
  exact hag _ (by have := List.mem_range.mp hi; omega)

/-- The compactor never reads a byte at index ≥ width·height·4: buffers that
agree below that bound produce identical results. -/
theorem processImage_congr_lt {d1 d2 : List Nat} (w h m q : Nat)
    (hag : ∀ i, i < w * h * channels → d1.getD i 0 = d2.getD i 0) :
    processImage d1 w h m q = processImage d2 w h m q := by
  have hrow : ∀ y, y < h → y * w * channels + w * channels ≤ w * h * channels := by
    intro y hy
    calc y * w * channels + w * channels
        = (y + 1) * (w * channels) := by ring
      _ ≤ h * (w * channels) := Nat.mul_le_mul_right _ hy
      _ = w * h * channels := by ring
  have hcr : contentRows d1 w h m q = contentRows d2 w h m q := by
    unfold contentRows
    apply List.filter_congr
    intro y hy
    exact rowIsContent_congr_lt hag w _ m q (hrow y (List.mem_range.mp hy))
  have hfst : (processImage d1 w h m q).1 = (processImage d2 w h m q).1 := by
    rw [processImage_fst, processImage_fst, hcr]
    apply congrArg
    apply List.map_congr_left
    intro y hy
    have hyh : y < h := List.mem_range.mp (List.mem_of_mem_filter hy)
    exact rowBytes_congr_lt hag _ w (hrow y hyh)
  have h1 : (processImage d1 w h m q).2
      = (processImage d1 w h m q).1.length / (w * channels) := by
    unfold processImage
    simp only
  have h2 : (processImage d2 w h m q).2
      = (processImage d2 w h m q).1.length / (w * channels) := by
    unfold processImage
    simp only
  calc processImage d1 w h m q
      = ((processImage d1 w h m q).1, (processImage d1 w h m q).2) := rfl
    _ = ((processImage d2 w h m q).1, (processImage d2 w h m q).2) := by
        rw [h1, h2, hfst]
    _ = processImage d2 w h m q := rfl

/-- C9 (amended): the core performs no buffer-length validation and cannot
fail on a mismatched buffer.  It behaves exactly as if the buffer had been
truncated or zero-padded to length width·height·4 (missing bytes read as 0),
silently producing an ordinary result. -/
theorem processImage_no_validation (d : List Nat) (w h m q : Nat) :
    processImage d w h m q
      = processImage
          (d.take (w * h * channels) ++ List.replicate (w * h * channels - d.length) 0)
          w h m q := by
  apply processImage_congr_lt
  intro i hi
  by_cases hlen : i < d.length
  · rw [List.getD_append _ _ _ _ (by rw [List.length_take]; omega)]
    rw [List.getD_eq_getElem d 0 hlen,
      List.getD_eq_getElem (List.take (w * h * channels) d) 0 (by rw [List.length_take]; omega),
      List.getElem_take]
  · have hlen' : d.length ≤ i := Nat.le_of_not_lt hlen
    rw [List.getD_eq_default d 0 hlen',
      List.getD_append_right _ _ _ _ (by rw [List.length_take]; omega),
      List.getD_eq_getElem _ 0 (by rw [List.length_replicate, List.length_take]; omega),
      List.getElem_replicate]

/-- A mismatched input for the no-validation counterexample: a single row of
8 bytes handed to the core as a claimed 2×2 image (expected length 16). -/
def inputC9 : List Nat := [7, 7, 7, 7, 7, 7, 7, 7]

/-- C9 counterexample: with a buffer whose length (8) differs from
width·height·4 (16), `processImage` neither raises nor returns a failure: it
silently returns an ordinary buffer, here the input followed by 8 fabricated
zero bytes, with height 2. -/
theorem processImage_no_failure_counterexample :
    inputC9.length ≠ 2 * 2 * channels
    ∧ processImage inputC9 2 2 0 16 = (inputC9 ++ List.replicate 8 0, 2) := by
  decide

/-! ### The fixed 4-bit shift: injectivity within 4 bits, collisions below -/

theorem lor_shiftLeft_eq_add (x b : Nat) (hb : b < 16) : (x <<< 4) ||| b = 16 * x + b := by
  have hb' : b < 2 ^ 4 := by omega
  have h := Nat.mul_add_lt_is_or hb' x
  rw [Nat.shiftLeft_eq, Nat.mul_comm x (2 ^ 4), ← h]

theorem packKey_eq_add (q0 q1 q2 : Nat) (h1 : q1 < 16) (h2 : q2 < 16) :
    packKey q0 q1 q2 = 256 * q0 + 16 * q1 + q2 := by
  unfold packKey
  rw [lor_shiftLeft_eq_add q0 q1 h1, lor_shiftLeft_eq_add _ q2 h2]
  ring

/-- The quantized channel triple of a pixel (before bit-packing). -/
def quantTriple (data : List Nat) (pixelStart quantizationFactor : Nat) : Nat × Nat × Nat :=
  (data.getD pixelStart 0 / quantizationFactor,
   data.getD (pixelStart + 1) 0 / quantizationFactor,
   data.getD (pixelStart + 2) 0 / quantizationFactor)

/-- A 2×1 row whose two pixels have distinct quantized triples `(1,0,0)` and
`(0,16,0)` at `quantizationFactor = 1`, yet identical packed keys. -/
def inputC10 : List Nat := [1, 0, 0, 255,  0, 16, 0, 255]

/-- C10: the key packs quantized channels with a fixed 4-bit shift.  It is
injective on quantized triples when every value fits in 4 bits (as with the
default factor 16 on 8-bit channels), but at `quantizationFactor = 1 < 16`
two pixels with different quantized triples share a key, so their row is
counted as having 1 distinct color instead of 2 and is classified blank at
threshold 1. -/
theorem packKey_fixed_shift (q0 q1 q2 r0 r1 r2 : Nat)
    (h0 : q0 < 16) (h1 : q1 < 16) (h2 : q2 < 16)
    (h3 : r0 < 16) (h4 : r1 < 16) (h5 : r2 < 16) :
    (packKey q0 q1 q2 = packKey r0 r1 r2 → q0 = r0 ∧ q1 = r1 ∧ q2 = r2)
    ∧ (∀ b, b ≤ 255 → b / 16 < 16)
    ∧ ((1 : Nat) < 16
        ∧ quantTriple inputC10 0 1 ≠ quantTriple inputC10 4 1
        ∧ pixelKey inputC10 0 1 = pixelKey inputC10 4 1
        ∧ (rowKeys inputC10 0 1 2).toFinset.card = 1
        ∧ rowIsContent inputC10 2 0 1 1 = false) := by
  refine ⟨?_, by intro b hb; omega, by decide⟩
  intro heq
  rw [packKey_eq_add q0 q1 q2 h1 h2, packKey_eq_add r0 r1 r2 h4 h5] at heq
  omega

/-- Witness for the pack-key theorem: injectivity applied at the concrete
quantized triples of two 8-bit pixels under the default factor 16. -/
theorem packKey_fixed_shift_witness :
    (255 / 16 : Nat) = 15 ∧ (32 / 16 : Nat) = 2 ∧ (7 : Nat) = 7 :=
  ⟨by decide, by decide,
    ((packKey_fixed_shift 15 2 7 15 2 7 (by decide) (by decide) (by decide)
        (by decide) (by decide) (by decide)).1 rfl).2.2⟩

/-- Concrete 4×3 input for the spec's scenario: row 0 solid red, row 1 a
black/white split, row 2 four distinct colors. -/
def inputC1 : List Nat :=
  [255, 0, 0, 255,   255, 0, 0, 255,   255, 0, 0, 255,   255, 0, 0, 255,
   0, 0, 0, 255,     0, 0, 0, 255,     255, 255, 255, 255, 255, 255, 255, 255,
   255, 0, 0, 255,   0, 255, 0, 255,   0, 0, 255, 255,   255, 255, 0, 255]

/-- C1: on the 4×3 scenario with `maxDifferentPixels = 1`, the compactor
returns exactly the bytes of input rows 1 and 2, in that order, with
height 2 (row 0 is dropped). -/
theorem processImage_scenario_4x3 :
    processImage inputC1 4 3 1 16 = (List.drop 16 inputC1, 2) := by
  decide
